import Mathlib

/-!
Verification of the OpenViking multi-language source-code skeleton extractor:
the dispatcher (`ASTExtractor` in `extractor.py`), the C# extractor
(`csharp.py`) and the skeleton text renderer.  Python code is shallowly
embedded: strings are Lean `String`s (lists of characters), the tree-sitter
concrete syntax tree is an explicit inductive tree carrying each node's type,
source text and optional name field, and Python exceptions are `Except`.
-/

namespace OV

/-! ## Python string primitives -/

/-- Characters treated as whitespace by Python's `str.strip` / `\s`
(ASCII range, which covers every input the extractor sees). -/
def pyIsSpace (c : Char) : Bool :=
  c == ' ' || c == '\t' || c == '\n' || c == '\r' || c == '\x0b' || c == '\x0c'

/-- Strip leading and trailing whitespace from a character list. -/
def stripList (l : List Char) : List Char :=
  ((l.dropWhile pyIsSpace).reverse.dropWhile pyIsSpace).reverse

/-- Python `str.strip()`. -/
def pyStrip (s : String) : String := ⟨stripList s.data⟩

/-- Python `str.lower()` (ASCII). -/
def pyLower (s : String) : String :=
  ⟨s.data.map (fun c => if 'A' ≤ c && c ≤ 'Z' then Char.ofNat (c.toNat + 32) else c)⟩

/-- Python `s.startswith(lead)`. -/
def hasLead (lead s : String) : Bool := lead.data.isPrefixOf s.data

/-- Python `s.endswith(t)`. -/
def hasTail (t s : String) : Bool := t.data.isSuffixOf s.data

/-- Python `s[n:]`. -/
def strDrop (s : String) (n : Nat) : String := ⟨s.data.drop n⟩

/-- Python `s[:-n]` (drop the last `n` characters). -/
def strDropRight (s : String) (n : Nat) : String := ⟨s.data.take (s.data.length - n)⟩

/-- Python `s.lstrip("*")`. -/
def lstripStar (s : String) : String := ⟨s.data.dropWhile (fun c => c == '*')⟩

/-- Helper for `splitNl`: split a character list at newline characters. -/
def splitNlList : List Char → List Char → List String
  | [], acc => [⟨acc.reverse⟩]
  | c :: rest, acc =>
    if c == '\n' then ⟨acc.reverse⟩ :: splitNlList rest []
    else splitNlList rest (c :: acc)

/-- Python `s.split("\n")`. -/
def splitNl (s : String) : List String := splitNlList s.data []

/-- Python `sep.join(l)`. -/
def joinSep (sep : String) : List String → String
  | [] => ""
  | [s] => s
  | s :: rest => s ++ sep ++ joinSep sep rest

/-- The first line of a string: everything before the first newline
(Python `s.split("\n")[0]`). -/
def firstLine (s : String) : String :=
  ⟨s.data.takeWhile (fun c => !(c == '\n'))⟩

/-- Collapse every maximal run of whitespace to a single space
(the effect of `re.sub(r"\s+", " ", s)`); the flag records whether the
previous character emitted belonged to a whitespace run. -/
def collapseAux : Bool → List Char → List Char
  | _, [] => []
  | prevWs, c :: rest =>
    if pyIsSpace c then
      if prevWs then collapseAux true rest
      else ' ' :: collapseAux true rest
    else c :: collapseAux false rest

/-- Python `re.sub(r"\s+", " ", s)`. -/
def collapseWs (s : String) : String := ⟨collapseAux false s.data⟩

/-- `substr d s` holds when `d` occurs contiguously inside `s`. -/
def substr (d s : String) : Prop := ∃ pre post, s = pre ++ d ++ post

/-- Concatenate a list of strings. -/
def strConcat : List String → String
  | [] => ""
  | s :: rest => s ++ strConcat rest

/-! ## Skeleton data model (`skeleton.py`) -/

/-- A function or method signature. -/
structure FunctionSig where
  name : String
  params : String
  return_type : String
  docstring : String

/-- A class-like declaration with its methods. -/
structure ClassSkeleton where
  name : String
  bases : List String
  docstring : String
  methods : List FunctionSig

/-- The structural summary of one source file. -/
structure CodeSkeleton where
  file_name : String
  language : String
  module_doc : String
  imports : List String
  classes : List ClassSkeleton
  functions : List FunctionSig

/-! ## Language detection (`extractor.py`) -/

/-- Association-list lookup, first match wins (Python `dict.get` for the
fixed literal dictionaries of `extractor.py`, whose keys are distinct). -/
def alookup {α : Type} : List (String × α) → String → Option α
  | [], _ => none
  | (k, v) :: rest, key => if k == key then some v else alookup rest key

/-- `_EXT_MAP`: file extension → internal language key. -/
def extMap : List (String × String) :=
  [(".py", "python"), (".js", "javascript"), (".jsx", "javascript"),
   (".ts", "typescript"), (".tsx", "typescript"), (".java", "java"),
   (".c", "cpp"), (".cpp", "cpp"), (".cc", "cpp"), (".h", "cpp"),
   (".hpp", "cpp"), (".rs", "rust"), (".go", "go"), (".cs", "csharp")]

/-- The final path component, as `pathlib.PurePosixPath(f).name`:
trailing slashes are ignored and everything up to the last `/` is dropped. -/
def pyPathName (f : String) : String :=
  ⟨(((f.data.reverse.dropWhile (fun c => c == '/'))).takeWhile (fun c => !(c == '/'))).reverse⟩

/-- `pathlib.Path(f).suffix`: the last extension of the final component,
including the dot; empty when the name has no dot, starts with its only
dot, or ends with a dot. -/
def pySuffix (f : String) : String :=
  let r := (pyPathName f).data.reverse
  let pre := r.takeWhile (fun c => !(c == '.'))
  match r.drop pre.length with
  | '.' :: restAfter =>
    if pre.length > 0 && restAfter.length > 0 then ⟨'.' :: pre.reverse⟩ else ""
  | _ => ""

/-- `ASTExtractor._detect_language`: look the lowercased suffix up in
`_EXT_MAP`. -/
def detectLanguage (f : String) : Option String :=
  alookup extMap (pyLower (pySuffix f))

/-- The language keys of `_EXTRACTOR_REGISTRY`. -/
def supported (l : String) : Bool :=
  l == "python" || l == "javascript" || l == "typescript" || l == "java" ||
  l == "cpp" || l == "rust" || l == "go" || l == "csharp"

/-! ## The dispatcher (`ASTExtractor`)

A Python call that may raise is modelled as `Except String`: `.error` is a
raised exception, `.ok` a normal return.  The behaviour of the pieces the
dispatcher merely invokes — extractor construction (`importlib` +
`cls(**kwargs)`), the per-language `extract`, and `CodeSkeleton.to_text` —
is a parameter `AstEnv`, so the theorems quantify over every possible
behaviour of those pieces, including raising. -/

/-- The environment of externally-supplied behaviours the dispatcher calls
into; each may raise (return `.error`). -/
structure AstEnv where
  construct : String → Except String Unit
  extractFn : String → String → String → Except String CodeSkeleton
  toTextFn : CodeSkeleton → Bool → Except String String

/-- `ASTExtractor._cache`: language key ↦ extractor, where `some none` is
the cached "unavailable" sentinel (`self._cache[lang] = None`). -/
abbrev Cache : Type := List (String × Option Unit)

/-- `ASTExtractor._get_extractor`: serve from the cache when the key is
present; otherwise attempt construction, caching the result — the sentinel
`none` on failure. -/
def getExtractor (env : AstEnv) (cache : Cache) : Option String → Option Unit × Cache
  | none => (none, cache)
  | some l =>
    if supported l then
      match alookup cache l with
      | some v => (v, cache)
      | none =>
        match env.construct l with
        | Except.ok u => (some u, (l, some u) :: cache)
        | Except.error _ => (none, (l, none) :: cache)
    else (none, cache)

/-- The second half of the `try` body: `skeleton.to_text(verbose=verbose)`,
with the handler turning a raise into `None`. -/
def renderOk (env : AstEnv) (sk : CodeSkeleton) (v : Bool) : Option String :=
  match env.toTextFn sk v with
  | Except.error _ => none
  | Except.ok txt => some txt

/-- The `try` body of `extract_skeleton` with its `except` handler:
`extractor.extract(...)` then `to_text`, any raise becoming `None`. -/
def extractOutcome (env : AstEnv) (l f c : String) (v : Bool) : Option String :=
  match env.extractFn l f c with
  | Except.error _ => none
  | Except.ok sk => renderOk env sk v

/-- `ASTExtractor.extract_skeleton`: detect the language, obtain the
extractor, run `extract` then `to_text` inside a `try` whose handler
converts any exception into a `None` return.  The result is `Except` so
that "the dispatcher itself raises" is expressible (and refuted). -/
def extractSkeleton (env : AstEnv) (cache : Cache)
    (file_name content : String) (verbose : Bool) :
    Except String (Option String) × Cache :=
  match detectLanguage file_name with
  | none => (Except.ok none, cache)
  | some l =>
    let g := getExtractor env cache (some l)
    ((match g.1 with
      | none => Except.ok none
      | some _ => Except.ok (extractOutcome env l file_name content verbose)),
     g.2)

/-- One `extract_skeleton` invocation's arguments. -/
structure Call where
  file : String
  content : String
  verbose : Bool

/-- Run a sequence of `extract_skeleton` calls on one dispatcher instance,
threading the cache. -/
def runCalls (env : AstEnv) (cache : Cache) :
    List Call → List (Except String (Option String)) × Cache
  | [] => ([], cache)
  | k :: rest =>
    let step := extractSkeleton env cache k.file k.content k.verbose
    let further := runCalls env step.2 rest
    (step.1 :: further.1, further.2)

/-- Whether a single call attempts extractor construction for language `l`:
it does exactly when the file maps to `l`, `l` is registered, and the cache
has no entry for `l` yet. -/
def attemptsCall (cache : Cache) (k : Call) (l : String) : Nat :=
  if (detectLanguage k.file == some l) && supported l && (alookup cache l).isNone
  then 1 else 0

/-- Total number of construction attempts for language `l` over a call
sequence. -/
def attemptsDuring (env : AstEnv) (cache : Cache) : List Call → String → Nat
  | [], _ => 0
  | k :: rest, l =>
    attemptsCall cache k l +
      attemptsDuring env (extractSkeleton env cache k.file k.content k.verbose).2 rest l

/-! ## Tree-sitter concrete syntax trees

`csharp.py` walks the tree produced by the external `tree_sitter_c_sharp`
grammar through three accessors: `node.type`, the node's source text
(`_node_text`, a byte-slice of the file), `node.children`, and
`child_by_field_name("name")`.  A node is embedded as its type, its text,
the text of its `name` field child (when present) and its child list. -/

/-- An abstract tree-sitter node. -/
inductive Node : Type where
  | mk : String → String → Option String → List Node → Node

/-- `node.type`. -/
def Node.ty : Node → String
  | .mk t _ _ _ => t

/-- `_node_text(node, content_bytes)`. -/
def Node.text : Node → String
  | .mk _ s _ _ => s

/-- The text of `node.child_by_field_name("name")`, when that child exists. -/
def Node.nameField : Node → Option String
  | .mk _ _ f _ => f

/-- `node.children`. -/
def Node.children : Node → List Node
  | .mk _ _ _ c => c

/-! ## C# doc-comment text normalization (`csharp.py`) -/

/-- ASCII letter. -/
def isAsciiAlpha (c : Char) : Bool := ('a' ≤ c && c ≤ 'z') || ('A' ≤ c && c ≤ 'Z')

/-- ASCII letter or digit. -/
def isAsciiAlnum (c : Char) : Bool := isAsciiAlpha c || ('0' ≤ c && c ≤ '9')

/-- Skip to just past the next `>` (the head of the `dropWhile` result is
necessarily `>`); `none` when no `>` remains. -/
def afterCloseAngle (l : List Char) : Option (List Char) :=
  match l.dropWhile (fun c => !(c == '>')) with
  | [] => none
  | _ :: rest => some rest

/-- The `/?>` alternatives after the tag name when the next character is
`/`. -/
def slashTail : List Char → Option (List Char)
  | [] => none
  | e :: rest2 => if e == '>' then some rest2 else none

/-- Dispatch on the first character after the tag name:
`>` closes, `/>` closes, whitespace starts the attribute part. -/
def tagTail : List Char → Option (List Char)
  | [] => none
  | d :: rest =>
    if d == '>' then some rest
    else if d == '/' then slashTail rest
    else if pyIsSpace d then afterCloseAngle (d :: rest)
    else none

/-- Match the XML-tag pattern `[a-zA-Z][a-zA-Z0-9]*(?:\s+[^>]*)?/?>` from
the position after `<` and the optional `/`, returning the characters past
the closing `>`. -/
def tagEnd : List Char → Option (List Char)
  | [] => none
  | c :: r => if isAsciiAlpha c then tagTail (r.dropWhile isAsciiAlnum) else none

/-- Match the body of an XML tag right after its `<`, allowing the optional
leading `/` of a closing tag. -/
def tryTag : List Char → Option (List Char)
  | [] => tagEnd []
  | c :: r => if c == '/' then tagEnd r else tagEnd (c :: r)

theorem dropWhile_length_le {α : Type} (p : α → Bool) (l : List α) :
    (l.dropWhile p).length ≤ l.length := by
  induction l with
  | nil => simp [List.dropWhile]
  | cons c rest ih =>
    simp only [List.dropWhile]
    split
    · exact Nat.le_trans ih (Nat.le_succ _)
    · exact Nat.le_refl _

theorem afterCloseAngle_length {l r : List Char} (h : afterCloseAngle l = some r) :
    r.length < l.length := by
  have hd := dropWhile_length_le (fun c => !(c == '>')) l
  cases hdw : l.dropWhile (fun c => !(c == '>')) with
  | nil =>
    simp only [afterCloseAngle, hdw] at h
    exact Option.noConfusion h
  | cons d rest =>
    simp only [afterCloseAngle, hdw, Option.some.injEq] at h
    rw [hdw] at hd
    simp only [List.length_cons] at hd
    subst h
    omega

theorem slashTail_length {l r : List Char} (h : slashTail l = some r) :
    r.length < l.length := by
  cases l with
  | nil => simp [slashTail] at h
  | cons e rest2 =>
    simp only [slashTail] at h
    split at h
    · simp only [Option.some.injEq] at h
      subst h
      simp
    · simp at h

theorem tagTail_length {l r : List Char} (h : tagTail l = some r) :
    r.length < l.length := by
  cases l with
  | nil => simp [tagTail] at h
  | cons d rest =>
    simp only [tagTail] at h
    split at h
    · simp only [Option.some.injEq] at h
      subst h
      simp
    · split at h
      · have := slashTail_length h
        simp only [List.length_cons]
        omega
      · split at h
        · have := afterCloseAngle_length h
          simpa using this
        · simp at h

theorem tagEnd_length {l1 r : List Char} (h : tagEnd l1 = some r) :
    r.length < l1.length := by
  cases l1 with
  | nil => simp [tagEnd] at h
  | cons c rest =>
    simp only [tagEnd] at h
    split at h
    · have h1 := tagTail_length h
      have h2 := dropWhile_length_le isAsciiAlnum rest
      simp only [List.length_cons]
      omega
    · simp at h

theorem tryTag_length {l r : List Char} (h : tryTag l = some r) :
    r.length < l.length := by
  cases l with
  | nil => simp [tryTag, tagEnd] at h
  | cons c rest =>
    simp only [tryTag] at h
    split at h
    · have := tagEnd_length h
      simp only [List.length_cons]
      omega
    · exact tagEnd_length h

/-- `re.sub(r"</?[a-zA-Z][a-zA-Z0-9]*(?:\s+[^>]*)?/?>", "", s)` on the
character list: delete each non-overlapping leftmost tag match.  The `Nat`
argument is computation fuel; since every step strictly shortens the list
(`tryTag_length`), fuel `l.length` always suffices
(`removeTagsFuel_congr`). -/
def removeTagsFuel : Nat → List Char → List Char
  | 0, l => l
  | _ + 1, [] => []
  | n + 1, c :: rest =>
    if c == '<' then
      match tryTag rest with
      | some rest2 => removeTagsFuel n rest2
      | none => c :: removeTagsFuel n rest
    else c :: removeTagsFuel n rest

/-- The tag remover at its sufficient fuel. -/
def removeTagsList (l : List Char) : List Char := removeTagsFuel l.length l

theorem removeTagsFuel_congr :
    ∀ (n m : Nat) (l : List Char), l.length ≤ n → l.length ≤ m →
      removeTagsFuel n l = removeTagsFuel m l := by
  intro n
  induction n with
  | zero =>
    intro m l h1 h2
    have hl : l = [] := List.eq_nil_of_length_eq_zero (Nat.le_zero.mp h1)
    subst hl
    cases m <;> rfl
  | succ n ih =>
    intro m l h1 h2
    cases l with
    | nil => cases m <;> rfl
    | cons c rest =>
      cases m with
      | zero => simp at h2
      | succ m =>
        simp only [removeTagsFuel]
        simp only [List.length_cons] at h1 h2
        by_cases hc : (c == '<') = true
        · rw [if_pos hc, if_pos hc]
          cases htt : tryTag rest with
          | some rest2 =>
            have := tryTag_length htt
            exact ih m rest2 (by omega) (by omega)
          | none =>
            rw [ih m rest (by omega) (by omega)]
        · rw [if_neg hc, if_neg hc]
          rw [ih m rest (by omega) (by omega)]

/-- Remove XML doc tags, keeping their text content. -/
def removeTags (s : String) : String := ⟨removeTagsList s.data⟩

/-- `_parse_doc_comment`: strip `///` or `/** */` markers, remove XML tags,
then collapse whitespace runs to single spaces and strip. -/
def parseDocComment (raw : String) : String :=
  let raw0 := pyStrip raw
  let raw1 :=
    if hasLead "///" raw0 then
      joinSep " "
        (((splitNl raw0).map (fun line =>
            let s := pyStrip line
            if hasLead "///" s then pyStrip (strDrop s 3) else s)).filter
          (fun s => !(s == "")))
    else if hasLead "/**" raw0 then
      let r0 := strDrop raw0 3
      let r1 := if hasTail "*/" r0 then strDropRight r0 2 else r0
      pyStrip (joinSep "\n"
        (((splitNl r1).map (fun l => pyStrip (lstripStar (pyStrip l)))).filter
          (fun s => !(s == ""))))
    else raw0
  pyStrip (collapseWs (removeTags raw1))

/-- Whether a `comment` node's text is an XML doc comment (`///` or `/**`). -/
def isDocCommentText (t : String) : Bool :=
  hasLead "///" (pyStrip t) || hasLead "/**" (pyStrip t)

/-- `_preceding_doc`'s backward scan: the input list is the reversed run of
siblings before the target node (nearest first); doc comments are collected
until a blocking sibling, skipping preprocessor and nullable directives. -/
def precedingDocList : List Node → List String → List String
  | [], acc => acc
  | p :: rest, acc =>
    if p.ty == "comment" then
      if isDocCommentText p.text then precedingDocList rest (parseDocComment p.text :: acc)
      else acc
    else if p.ty == "preprocessor_directive" || p.ty == "nullable_directive" then
      precedingDocList rest acc
    else acc

/-- `_preceding_doc(siblings, idx, ...)`, phrased over the reversed prefix
of siblings before the target (empty for the first sibling). -/
def precedingDocRev (revPrefix : List Node) : String :=
  let cs := precedingDocList revPrefix []
  if cs.isEmpty then "" else joinSep "\n" cs

/-! ## C# declaration extraction (`csharp.py`) -/

/-- `_extract_method`'s `parameter_list` handling: strip, remove the outer
parentheses when both are present, strip again. -/
def paramsOfList (t : String) : String :=
  let raw := pyStrip t
  let raw1 := if hasLead "(" raw && hasTail ")" raw then strDropRight (strDrop raw 1) 1 else raw
  pyStrip raw1

/-- The main child loop of `_extract_method`, accumulating
(name, params, return type) with Python's first-wins/overwrite semantics. -/
def methodFold : List Node → String → String → String → String × String × String
  | [], n, p, r => (n, p, r)
  | c :: rest, n, p, r =>
    if c.ty == "identifier" && n == "" then methodFold rest c.text p r
    else if c.ty == "void_keyword" then methodFold rest n p "void"
    else if c.ty == "predefined_type" || c.ty == "type_identifier" || c.ty == "generic_name" then
      methodFold rest n p (if r == "" then c.text else r)
    else if c.ty == "parameter_list" then methodFold rest n (paramsOfList c.text) r
    else methodFold rest n p r

/-- The accessor name of an `accessor_declaration`: the `name` field child's
stripped text, or the first `get`/`set`/`init` keyword child's type. -/
def accessorName (a : Node) : String :=
  match a.nameField with
  | some t => pyStrip t
  | none =>
    match a.children.find? (fun s => s.ty == "get" || s.ty == "set" || s.ty == "init") with
    | some s => s.ty
    | none => ""

/-- The declared `get`/`set`/`init` accessors of an `accessor_list`, in
declaration order. -/
def accessorsOf (al : Node) : List String :=
  al.children.filterMap (fun a =>
    if a.ty == "accessor_declaration" then
      let n := accessorName a
      if n == "get" || n == "set" || n == "init" then some n else none
    else none)

/-- The `property_declaration` branch of `_extract_method`: each
`accessor_list` child with at least one recognised accessor overwrites
`params` with the synthetic accessor token set. -/
def propertyParams (node : Node) (p0 : String) : String :=
  node.children.foldl (fun p c =>
    if c.ty == "accessor_list" then
      let accs := accessorsOf c
      if accs.isEmpty then p else "\x7b " ++ joinSep " " accs ++ " \x7d"
    else p) p0

/-- `_extract_method`. -/
def extractMethod (node : Node) (doc : String) : FunctionSig :=
  let f := methodFold node.children "" "" ""
  let p := if node.ty == "property_declaration" then propertyParams node f.2.1 else f.2.1
  FunctionSig.mk f.1 p f.2.2 doc

/-- Method-like members extracted from a class body (`method_declaration`,
`constructor_declaration`, `property_declaration`). -/
def methodLike (c : Node) : Bool :=
  c.ty == "method_declaration" || c.ty == "constructor_declaration" ||
  c.ty == "property_declaration"

/-- The body walk of `_extract_class`: extract each method-like member with
the doc comment found by scanning its preceding siblings (carried reversed
in `prev`). -/
def methodsWalk (prev : List Node) : List Node → List FunctionSig
  | [] => []
  | c :: rest =>
    if methodLike c then
      extractMethod c (precedingDocRev prev) :: methodsWalk (c :: prev) rest
    else methodsWalk (c :: prev) rest

/-- The child loop of `_extract_class`, accumulating the name, base list
and body node. -/
def classFold : List Node → String → List String → Option Node →
    String × List String × Option Node
  | [], n, bs, b => (n, bs, b)
  | c :: rest, n, bs, b =>
    if c.ty == "identifier" && n == "" then classFold rest c.text bs b
    else if c.ty == "base_list" then
      classFold rest n
        (bs ++ c.children.filterMap (fun s =>
          if s.ty == "type_identifier" || s.ty == "identifier" then some s.text else none)) b
    else if c.ty == "declaration_list" then classFold rest n bs (some c)
    else classFold rest n bs b

/-- `_extract_class`. -/
def extractClass (node : Node) (doc : String) : ClassSkeleton :=
  let f := classFold node.children "" [] none
  let ms := match f.2.2 with
    | none => []
    | some body => methodsWalk [] body.children
  ClassSkeleton.mk f.1 f.2.1 doc ms

/-- Class-like declarations recognised by `CSharpExtractor.extract`. -/
def classLike (c : Node) : Bool :=
  c.ty == "class_declaration" || c.ty == "interface_declaration" ||
  c.ty == "struct_declaration" || c.ty == "record_declaration"

/-- Namespace declarations (block-scoped and file-scoped). -/
def nsLike (c : Node) : Bool :=
  c.ty == "namespace_declaration" || c.ty == "file_scoped_namespace_declaration"

/-- The import targets of one `using_directive`: the texts of its
`identifier` and `qualified_name` children, appended unconditionally. -/
def usingImports (c : Node) : List String :=
  c.children.filterMap (fun s =>
    if s.ty == "identifier" || s.ty == "qualified_name" then some s.text else none)

/-- The imports accumulated by `CSharpExtractor.extract`'s top-level loop. -/
def topImports : List Node → List String
  | [] => []
  | c :: rest =>
    (if c.ty == "using_directive" then usingImports c else []) ++ topImports rest

/-- Walk a namespace's declaration list, extracting class-like members;
`prev` holds the already-visited siblings, reversed, for doc-comment
association. -/
def classesWalk (prev : List Node) : List Node → List ClassSkeleton
  | [] => []
  | c :: rest =>
    if classLike c then
      extractClass c (precedingDocRev prev) :: classesWalk (c :: prev) rest
    else classesWalk (c :: prev) rest

/-- Classes found inside one namespace declaration: for each
`declaration_list` child, extract its class-like members with sibling-local
doc comments. -/
def nsClassesOf (ns : Node) : List ClassSkeleton :=
  ns.children.foldl (fun acc sub =>
    if sub.ty == "declaration_list" then acc ++ classesWalk [] sub.children else acc) []

/-- The classes accumulated by `CSharpExtractor.extract`'s top-level loop:
classes inside (block- or file-scoped) namespaces are flattened next to
top-level classes, in source order. -/
def topClasses (prev : List Node) : List Node → List ClassSkeleton
  | [] => []
  | c :: rest =>
    (if nsLike c then nsClassesOf c
     else if classLike c then [extractClass c (precedingDocRev prev)]
     else []) ++ topClasses (c :: prev) rest

/-- `CSharpExtractor.extract`: walk the root's children once, collecting
imports and classes; `module_doc` and `functions` are left empty. -/
def csharpExtract (file_name : String) (root : Node) : CodeSkeleton :=
  CodeSkeleton.mk file_name "C#" "" (topImports root.children)
    (topClasses [] root.children) []

/-! ## The text renderer -/

/-- Triple-quote marker used around rendered docstrings. -/
def q3 : String := "\"\"\""

/-- Modelled from the spec: the docstring rendering rule of
`CodeSkeleton.to_text` (the renderer of `skeleton.py`, which is not part of
the sources verified here).  A non-empty docstring is rendered
triple-quoted: the full text under `verbose`, only its first line
otherwise; opening and closing markers share a line with content. -/
def renderDoc (indent : String) (verbose : Bool) (d : String) : String :=
  if d == "" then ""
  else if verbose then indent ++ q3 ++ d ++ q3 ++ "\n"
  else indent ++ q3 ++ firstLine d ++ q3 ++ "\n"

/-- Modelled from the spec: multi-line `params` text is compacted onto a
single logical signature line. -/
def oneLine (p : String) : String := joinSep " " (splitNl p)

/-- Modelled from the spec: one function or method line of
`CodeSkeleton.to_text` — marker, name, compacted params, optional return
type — followed by its docstring under the compact/verbose rule. -/
def renderFun (marker indent : String) (verbose : Bool) (f : FunctionSig) : String :=
  indent ++ marker ++ f.name ++ "(" ++ oneLine f.params ++ ")" ++
    (if f.return_type == "" then "" else " -> " ++ f.return_type) ++ "\n" ++
    renderDoc (indent ++ "  ") verbose f.docstring

/-- Modelled from the spec: one class block of `CodeSkeleton.to_text` —
`class Name(bases)` (parens omitted without bases), its docstring, then its
methods as `+ name(params) -> ret` lines. -/
def renderClass (verbose : Bool) (c : ClassSkeleton) : String :=
  "class " ++ c.name ++
    (if c.bases.isEmpty then "" else "(" ++ joinSep ", " c.bases ++ ")") ++ "\n" ++
    renderDoc "  " verbose c.docstring ++
    strConcat (c.methods.map (renderFun "+ " "  " verbose))

/-- Modelled from the spec: `CodeSkeleton.to_text` (absent `skeleton.py`).
Header line, `module:` line with the first line of the module doc (always
first-line-only), `imports:` line, class blocks, then top-level functions;
`verbose` switches class/method/function docstrings between first-line-only
and full text. -/
def to_text (sk : CodeSkeleton) (verbose : Bool) : String :=
  "# " ++ sk.file_name ++ " [" ++ sk.language ++ "]\n" ++
    (if sk.module_doc == "" then ""
     else "module: \"" ++ firstLine sk.module_doc ++ "\"\n") ++
    (if sk.imports.isEmpty then "" else "imports: " ++ joinSep ", " sk.imports ++ "\n") ++
    strConcat (sk.classes.map (renderClass verbose)) ++
    strConcat (sk.functions.map (renderFun "def " "" verbose))

/-- Truncate a signature's docstring to its first line. -/
def truncSig (m : FunctionSig) : FunctionSig :=
  FunctionSig.mk m.name m.params m.return_type (firstLine m.docstring)

/-- Truncate a class's docstring and its methods' docstrings to their first
lines. -/
def truncClass (c : ClassSkeleton) : ClassSkeleton :=
  ClassSkeleton.mk c.name c.bases (firstLine c.docstring) (c.methods.map truncSig)

/-- Truncate every docstring of a skeleton (module, class, method,
function) to its first line. -/
def truncateDocs (sk : CodeSkeleton) : CodeSkeleton :=
  CodeSkeleton.mk sk.file_name sk.language (firstLine sk.module_doc) sk.imports
    (sk.classes.map truncClass) (sk.functions.map truncSig)

/-- The class, method and top-level-function docstrings of a skeleton (the
docstrings whose rendering the `verbose` flag switches). -/
def bodyDocstrings (sk : CodeSkeleton) : List String :=
  (sk.classes.map (fun c => c.docstring :: c.methods.map FunctionSig.docstring)).flatten ++
    sk.functions.map FunctionSig.docstring

/-- Every docstring of a skeleton, the module doc included. -/
def allDocstrings (sk : CodeSkeleton) : List String :=
  sk.module_doc :: bodyDocstrings sk

/-! ## Concrete fixtures used by witnesses and counterexamples -/

/-- An environment in which construction, extraction and rendering all
raise. -/
def envFail : AstEnv :=
  AstEnv.mk (fun _ => Except.error "unavailable")
    (fun _ _ _ => Except.error "parse error")
    (fun _ _ => Except.error "render error")

/-- CST of `using System;`. -/
def usingSystem : Node :=
  Node.mk "using_directive" "using System;" none
    [Node.mk "using" "using" none [], Node.mk "identifier" "System" none [],
     Node.mk ";" ";" none []]

/-- CST of a C# file consisting of `using System;` written twice. -/
def dupUsingRoot : Node :=
  Node.mk "compilation_unit" "" none [usingSystem, usingSystem]

/-- CST of a leading `///` doc comment line. -/
def leadDocNode : Node := Node.mk "comment" "/// File-level documentation." none []

/-- CST of `class Widget` with an empty body. -/
def widgetClass : Node :=
  Node.mk "class_declaration" "" none
    [Node.mk "class" "class" none [], Node.mk "identifier" "Widget" none [],
     Node.mk "declaration_list" "" none []]

/-- CST of a C# file that begins with a doc-comment block before any
declaration. -/
def leadingDocRoot : Node :=
  Node.mk "compilation_unit" "" none [leadDocNode, widgetClass]

/-! ## Claim theorems -/

theorem extractSkeleton_det_none {env : AstEnv} {cache : Cache}
    {f c : String} {v : Bool} (h : detectLanguage f = none) :
    extractSkeleton env cache f c v = (Except.ok none, cache) := by
  unfold extractSkeleton
  rw [h]

theorem extractSkeleton_det_some {env : AstEnv} {cache : Cache}
    {f c : String} {v : Bool} {l : String} (h : detectLanguage f = some l) :
    extractSkeleton env cache f c v =
      ((match (getExtractor env cache (some l)).1 with
        | none => Except.ok none
        | some _ => Except.ok (extractOutcome env l f c v)),
       (getExtractor env cache (some l)).2) := by
  unfold extractSkeleton
  rw [h]

theorem renderOk_error {env : AstEnv} {sk : CodeSkeleton} {v : Bool} {e : String}
    (h : env.toTextFn sk v = Except.error e) : renderOk env sk v = none := by
  unfold renderOk
  rw [h]

theorem renderOk_ok {env : AstEnv} {sk : CodeSkeleton} {v : Bool} {t : String}
    (h : env.toTextFn sk v = Except.ok t) : renderOk env sk v = some t := by
  unfold renderOk
  rw [h]

theorem extractOutcome_error {env : AstEnv} {l f c : String} {v : Bool} {e : String}
    (h : env.extractFn l f c = Except.error e) : extractOutcome env l f c v = none := by
  unfold extractOutcome
  rw [h]

theorem extractOutcome_ok {env : AstEnv} {l f c : String} {v : Bool} {sk : CodeSkeleton}
    (h : env.extractFn l f c = Except.ok sk) :
    extractOutcome env l f c v = renderOk env sk v := by
  unfold extractOutcome
  rw [h]

/-- Claim C1: for every file name, content and verbose flag (and every
behaviour of the constructed extractors and the renderer),
`ASTExtractor.extract_skeleton` never raises: it returns the rendered
skeleton string on success, and `None` when the language is unsupported,
when the extractor backend is unavailable, or when `extract` or `to_text`
raises — every exception from extraction is caught at the dispatcher
boundary and converted to a `None` return. -/
theorem extract_skeleton_never_raises (env : AstEnv) (cache : Cache)
    (f c : String) (v : Bool) :
    (∃ r cache2, extractSkeleton env cache f c v = (Except.ok r, cache2)) ∧
    (detectLanguage f = none →
      extractSkeleton env cache f c v = (Except.ok none, cache)) ∧
    (∀ l, detectLanguage f = some l →
      (getExtractor env cache (some l)).1 = none →
      (extractSkeleton env cache f c v).1 = Except.ok none) ∧
    (∀ l u e, detectLanguage f = some l →
      (getExtractor env cache (some l)).1 = some u →
      env.extractFn l f c = Except.error e →
      (extractSkeleton env cache f c v).1 = Except.ok none) ∧
    (∀ l u sk e, detectLanguage f = some l →
      (getExtractor env cache (some l)).1 = some u →
      env.extractFn l f c = Except.ok sk →
      env.toTextFn sk v = Except.error e →
      (extractSkeleton env cache f c v).1 = Except.ok none) ∧
    (∀ l u sk t, detectLanguage f = some l →
      (getExtractor env cache (some l)).1 = some u →
      env.extractFn l f c = Except.ok sk →
      env.toTextFn sk v = Except.ok t →
      (extractSkeleton env cache f c v).1 = Except.ok (some t)) := by
  refine ⟨?_, ?_, ?_, ?_, ?_, ?_⟩
  · cases hdet : detectLanguage f with
    | none => exact ⟨none, cache, extractSkeleton_det_none hdet⟩
    | some l =>
      rw [extractSkeleton_det_some hdet]
      cases hg : (getExtractor env cache (some l)).1 with
      | none => exact ⟨none, _, rfl⟩
      | some u => exact ⟨extractOutcome env l f c v, _, rfl⟩
  · intro h
    exact extractSkeleton_det_none h
  · intro l hdet hg
    rw [extractSkeleton_det_some hdet, hg]
  · intro l u e hdet hg hE
    rw [extractSkeleton_det_some hdet, hg, extractOutcome_error hE]
  · intro l u sk e hdet hg hE hT
    rw [extractSkeleton_det_some hdet, hg, extractOutcome_ok hE, renderOk_error hT]
  · intro l u sk t hdet hg hE hT
    rw [extractSkeleton_det_some hdet, hg, extractOutcome_ok hE, renderOk_ok hT]

/-- Witness for C1: in an environment where construction itself raises, a
call on a supported extension returns `None` without raising. -/
theorem extract_skeleton_never_raises_witness :
    (extractSkeleton envFail [] "a.py" "x" false).1 = Except.ok none :=
  (extract_skeleton_never_raises envFail [] "a.py" "x" false).2.2.1 "python" rfl rfl

/-- Claim C2: language detection lowercases the file name's extension and
maps it through the fixed table (`.py`→python/Python, `.js`/`.jsx`→
javascript/JavaScript, `.ts`/`.tsx`→typescript/TypeScript, `.java`→java/Java,
`.c`/`.cpp`/`.cc`/`.h`/`.hpp`→cpp/"C/C++", `.rs`→rust/Rust, `.go`→go/Go,
`.cs`→csharp/"C#"); any file name whose (lowercased) extension is not in
the table makes `extract_skeleton` return `None` immediately, for any
content and cache, without raising and without touching the cache. -/
theorem detect_language_table :
    (∀ (env : AstEnv) (cache : Cache) (f c : String) (v : Bool),
      detectLanguage f = none →
      extractSkeleton env cache f c v = (Except.ok none, cache)) ∧
    detectLanguage "a.py" = some "python" ∧ detectLanguage "A.PY" = some "python" ∧
    detectLanguage "a.js" = some "javascript" ∧
    detectLanguage "a.jsx" = some "javascript" ∧
    detectLanguage "a.ts" = some "typescript" ∧
    detectLanguage "a.tsx" = some "typescript" ∧
    detectLanguage "a.TsX" = some "typescript" ∧
    detectLanguage "a.java" = some "java" ∧
    detectLanguage "a.c" = some "cpp" ∧ detectLanguage "a.cpp" = some "cpp" ∧
    detectLanguage "a.cc" = some "cpp" ∧ detectLanguage "a.h" = some "cpp" ∧
    detectLanguage "a.hpp" = some "cpp" ∧
    detectLanguage "a.rs" = some "rust" ∧ detectLanguage "a.go" = some "go" ∧
    detectLanguage "a.cs" = some "csharp" ∧
    detectLanguage "a.lua" = none ∧ detectLanguage "README" = none ∧
    detectLanguage "dir/weird.name.txt" = none := by
  constructor
  · intro env cache f c v h
    unfold extractSkeleton
    rw [h]
  · decide

/-- Witness for C2: an unknown extension with binary-garbage content
returns `None` at once, even in an environment where everything raises. -/
theorem detect_language_table_witness :
    extractSkeleton envFail [] "binary.lua" "\x00garbage" false = (Except.ok none, []) :=
  detect_language_table.1 envFail [] "binary.lua" "\x00garbage" false rfl

/-- Claim C4 (code bug): `CSharpExtractor.extract` appends each `using`
target without a membership check, so two textually identical
`using System;` directives yield `imports == ["System", "System"]`,
violating the documented exact-text deduplication invariant. -/
theorem csharp_duplicate_using_not_deduplicated :
    (csharpExtract "Dup.cs" dupUsingRoot).imports = ["System", "System"] := rfl

/-- Counterexample to claim C9: a C# file beginning with a leading
doc-comment block before any declaration still yields an empty
`module_doc`. -/
theorem csharp_leading_doc_not_module_doc :
    (leadingDocRoot.children.map Node.ty).head? = some "comment" ∧
    isDocCommentText leadDocNode.text = true ∧
    (csharpExtract "Widget.cs" leadingDocRoot).module_doc = "" :=
  ⟨rfl, rfl, rfl⟩

/-- Claim C9 as amended: the C# extractor never captures module-level
documentation — `module_doc` is the empty string for every input; a
leading doc-comment block is not captured as module documentation. -/
theorem csharp_module_doc_always_empty (f : String) (root : Node) :
    (csharpExtract f root).module_doc = "" := rfl

/-- Claim C10: on every input, `CSharpExtractor.extract` produces a
skeleton whose language is exactly `"C#"`, whose `module_doc` is empty and
whose top-level `functions` list is empty. -/
theorem csharp_skeleton_constant_fields (f : String) (root : Node) :
    (csharpExtract f root).language = "C#" ∧
    (csharpExtract f root).module_doc = "" ∧
    (csharpExtract f root).functions = [] :=
  ⟨rfl, rfl, rfl⟩

theorem classesWalk_cons_pos {c : Node} {prev rest : List Node}
    (hc : classLike c = true) :
    classesWalk prev (c :: rest) =
      extractClass c (precedingDocRev prev) :: classesWalk (c :: prev) rest := by
  simp [classesWalk, hc]

theorem classesWalk_cons_neg {c : Node} {prev rest : List Node}
    (hc : classLike c = false) :
    classesWalk prev (c :: rest) = classesWalk (c :: prev) rest := by
  simp [classesWalk, hc]

theorem classesWalk_mem (cd : Node) (hc : classLike cd = true) :
    ∀ (l prev : List Node), cd ∈ l →
      ∃ d, extractClass cd d ∈ classesWalk prev l := by
  intro l
  induction l with
  | nil => intro prev hm; cases hm
  | cons a rest ih =>
    intro prev hm
    rcases List.mem_cons.mp hm with h | h
    · subst h
      refine ⟨precedingDocRev prev, ?_⟩
      rw [classesWalk_cons_pos hc]
      exact List.mem_cons_self _ _
    · cases hca : classLike a with
      | true =>
        obtain ⟨d, hd⟩ := ih (a :: prev) h
        exact ⟨d, by rw [classesWalk_cons_pos hca]; exact List.mem_cons_of_mem _ hd⟩
      | false =>
        obtain ⟨d, hd⟩ := ih (a :: prev) h
        exact ⟨d, by rw [classesWalk_cons_neg hca]; exact hd⟩

theorem nsFold_mono (x : ClassSkeleton) :
    ∀ (subs : List Node) (acc : List ClassSkeleton), x ∈ acc →
      x ∈ subs.foldl (fun acc sub =>
        if sub.ty == "declaration_list" then acc ++ classesWalk [] sub.children
        else acc) acc := by
  intro subs
  induction subs with
  | nil => intro acc h; exact h
  | cons a rest ih =>
    intro acc h
    simp only [List.foldl_cons]
    apply ih
    split
    · exact List.mem_append.mpr (Or.inl h)
    · exact h

theorem nsFold_mem (x : ClassSkeleton) (dl : Node) (hty : dl.ty = "declaration_list")
    (hx : x ∈ classesWalk [] dl.children) :
    ∀ (subs : List Node) (acc : List ClassSkeleton), dl ∈ subs →
      x ∈ subs.foldl (fun acc sub =>
        if sub.ty == "declaration_list" then acc ++ classesWalk [] sub.children
        else acc) acc := by
  intro subs
  induction subs with
  | nil => intro acc h; cases h
  | cons a rest ih =>
    intro acc h
    simp only [List.foldl_cons]
    rcases List.mem_cons.mp h with h | h
    · subst h
      apply nsFold_mono
      rw [if_pos (by simp [hty])]
      exact List.mem_append.mpr (Or.inr hx)
    · exact ih _ h

theorem nsClassesOf_mem {x : ClassSkeleton} {ns dl : Node}
    (hdl : dl ∈ ns.children) (hty : dl.ty = "declaration_list")
    (hx : x ∈ classesWalk [] dl.children) : x ∈ nsClassesOf ns :=
  nsFold_mem x dl hty hx ns.children [] hdl

theorem topClasses_cons (prev : List Node) (a : Node) (rest : List Node) :
    topClasses prev (a :: rest) =
      (if nsLike a then nsClassesOf a
       else if classLike a then [extractClass a (precedingDocRev prev)]
       else []) ++ topClasses (a :: prev) rest := rfl

theorem classLike_not_nsLike {c : Node} (h : classLike c = true) :
    nsLike c = false := by
  simp only [classLike, Bool.or_eq_true, beq_iff_eq] at h
  rcases h with ((h | h) | h) | h <;> simp [nsLike, h]

theorem topClasses_mem_ns {x : ClassSkeleton} {ns : Node}
    (hns : nsLike ns = true) (hx : x ∈ nsClassesOf ns) :
    ∀ (l prev : List Node), ns ∈ l → x ∈ topClasses prev l := by
  intro l
  induction l with
  | nil => intro prev h; cases h
  | cons a rest ih =>
    intro prev h
    rw [topClasses_cons]
    rcases List.mem_cons.mp h with h | h
    · subst h
      apply List.mem_append.mpr (Or.inl _)
      rw [if_pos hns]
      exact hx
    · exact List.mem_append.mpr (Or.inr (ih (a :: prev) h))

theorem topClasses_mem_class (cd : Node) (hc : classLike cd = true) :
    ∀ (l prev : List Node), cd ∈ l →
      ∃ d, extractClass cd d ∈ topClasses prev l := by
  intro l
  induction l with
  | nil => intro prev h; cases h
  | cons a rest ih =>
    intro prev h
    rcases List.mem_cons.mp h with h | h
    · subst h
      refine ⟨precedingDocRev prev, ?_⟩
      rw [topClasses_cons, if_neg (by simp [classLike_not_nsLike hc]), if_pos hc]
      exact List.mem_append.mpr (Or.inl (List.mem_cons_self _ _))
    · obtain ⟨d, hd⟩ := ih (a :: prev) h
      exact ⟨d, by rw [topClasses_cons]; exact List.mem_append.mpr (Or.inr hd)⟩

/-- Claim C6: a class-like declaration (class, interface, struct, record)
sitting in the declaration list of a block-scoped or file-scoped namespace
declaration is extracted and flattened into the skeleton's top-level
`classes` list, exactly like a class-like declaration outside any
namespace; no namespace wrapper is retained. -/
theorem csharp_namespace_classes_flattened (f : String) (root ns dl cd : Node) :
    (ns ∈ root.children → nsLike ns = true → dl ∈ ns.children →
      dl.ty = "declaration_list" → cd ∈ dl.children → classLike cd = true →
      ∃ d, extractClass cd d ∈ (csharpExtract f root).classes) ∧
    (cd ∈ root.children → classLike cd = true →
      ∃ d, extractClass cd d ∈ (csharpExtract f root).classes) := by
  constructor
  · intro hns hnst hdl hdlt hcd hct
    obtain ⟨d, hd⟩ := classesWalk_mem cd hct dl.children [] hcd
    exact ⟨d, topClasses_mem_ns hnst (nsClassesOf_mem hdl hdlt hd) root.children [] hns⟩
  · intro hcd hct
    exact topClasses_mem_class cd hct root.children [] hcd

/-- CST of `class Calculator` with an empty body, used inside a namespace. -/
def nsCalcClass : Node :=
  Node.mk "class_declaration" "" none
    [Node.mk "class" "class" none [], Node.mk "identifier" "Calculator" none [],
     Node.mk "declaration_list" "" none []]

/-- CST declaration list of the sample namespace. -/
def nsDeclList : Node := Node.mk "declaration_list" "" none [nsCalcClass]

/-- CST of `namespace MyApp.Services;` (file-scoped) containing
`nsCalcClass`. -/
def fileScopedNs : Node :=
  Node.mk "file_scoped_namespace_declaration" "" none
    [Node.mk "namespace" "namespace" none [],
     Node.mk "qualified_name" "MyApp.Services" none [], nsDeclList]

/-- CST of a C# file with a file-scoped namespace containing a class, plus
a class outside any namespace. -/
def nsRoot : Node :=
  Node.mk "compilation_unit" "" none [usingSystem, fileScopedNs, widgetClass]

/-- Witness for C6: in the concrete file, both the namespaced class and the
top-level class land in the flattened `classes` list. -/
theorem csharp_namespace_classes_flattened_witness :
    (∃ d, extractClass nsCalcClass d ∈ (csharpExtract "Calculator.cs" nsRoot).classes) ∧
    (∃ d, extractClass widgetClass d ∈ (csharpExtract "Calculator.cs" nsRoot).classes) :=
  ⟨(csharp_namespace_classes_flattened "Calculator.cs" nsRoot fileScopedNs nsDeclList
      nsCalcClass).1
      (by simp [nsRoot, Node.children]) rfl (by simp [fileScopedNs, Node.children]) rfl
      (by simp [nsDeclList, Node.children]) rfl,
   (csharp_namespace_classes_flattened "Calculator.cs" nsRoot fileScopedNs nsDeclList
      widgetClass).2
      (by simp [nsRoot, Node.children]) rfl⟩

theorem methodFold_name_stable :
    ∀ (l : List Node) (n p r : String), n ≠ "" → (methodFold l n p r).1 = n := by
  intro l
  induction l with
  | nil => intro n p r _; rfl
  | cons a rest ih =>
    intro n p r hn
    have hb : (n == "") = false := by simpa using hn
    simp only [methodFold, hb, Bool.and_false, Bool.false_eq_true, if_false]
    split
    · exact ih _ _ _ hn
    · split
      · exact ih _ _ _ hn
      · split
        · exact ih _ _ _ hn
        · exact ih _ _ _ hn

theorem find?_cons_eq {α : Type} (p : α → Bool) (a : α) (l : List α) :
    (a :: l).find? p = if p a then some a else l.find? p := by
  cases hpa : p a <;> simp [List.find?_cons, hpa]

theorem methodFold_first_ident :
    ∀ (l : List Node) (p r : String) (idN : Node),
      l.find? (fun c => c.ty == "identifier") = some idN → idN.text ≠ "" →
      (methodFold l "" p r).1 = idN.text := by
  intro l
  induction l with
  | nil => intro p r idN h _; simp at h
  | cons a rest ih =>
    intro p r idN h hn
    simp only [find?_cons_eq] at h
    cases hpa : (a.ty == "identifier") with
    | true =>
      rw [hpa, if_pos rfl] at h
      have ha : a = idN := by simpa using h
      subst ha
      have hc : (a.ty == "identifier" && ("" == "")) = true := by rw [hpa]; rfl
      simp only [methodFold, hc, if_true]
      exact methodFold_name_stable rest a.text p r hn
    | false =>
      rw [hpa, if_neg (by simp)] at h
      simp only [methodFold, hpa, Bool.false_and, Bool.false_eq_true, if_false]
      split
      · exact ih _ _ _ h hn
      · split
        · exact ih _ _ _ h hn
        · split
          · exact ih _ _ _ h hn
          · exact ih _ _ _ h hn

theorem propFold_skip :
    ∀ (l : List Node) (p : String),
      l.filter (fun c => c.ty == "accessor_list") = [] →
      l.foldl (fun p c =>
        if c.ty == "accessor_list" then
          let accs := accessorsOf c
          if accs.isEmpty then p else "\x7b " ++ joinSep " " accs ++ " \x7d"
        else p) p = p := by
  intro l
  induction l with
  | nil => intro p _; rfl
  | cons a rest ih =>
    intro p h
    cases hpa : (a.ty == "accessor_list") with
    | true => simp [List.filter_cons, hpa] at h
    | false =>
      simp only [List.filter_cons, hpa, if_false] at h
      simp only [List.foldl_cons, hpa, if_false]
      exact ih p h

theorem propFold_single :
    ∀ (l : List Node) (p : String) (al : Node),
      l.filter (fun c => c.ty == "accessor_list") = [al] →
      accessorsOf al ≠ [] →
      l.foldl (fun p c =>
        if c.ty == "accessor_list" then
          let accs := accessorsOf c
          if accs.isEmpty then p else "\x7b " ++ joinSep " " accs ++ " \x7d"
        else p) p = "\x7b " ++ joinSep " " (accessorsOf al) ++ " \x7d" := by
  intro l
  induction l with
  | nil => intro p al h _; simp at h
  | cons a rest ih =>
    intro p al h hacc
    cases hpa : (a.ty == "accessor_list") with
    | true =>
      simp only [List.filter_cons, hpa, if_pos, List.cons.injEq] at h
      obtain ⟨ha, hrest⟩ := h
      subst ha
      have hne : (accessorsOf a).isEmpty = false := by
        cases hacc2 : accessorsOf a with
        | nil => exact absurd hacc2 hacc
        | cons x xs => rfl
      simp only [List.foldl_cons, hpa, if_pos, hne, if_false]
      exact propFold_skip rest _ hrest
    | false =>
      simp only [List.filter_cons, hpa, if_false] at h
      simp only [List.foldl_cons, hpa, if_false]
      exact ih p al h hacc

/-- CST of the expression-bodied property `public int X => 5;` — a
property declaration with no accessor list. -/
def propNoAcc : Node :=
  Node.mk "property_declaration" "public int X => 5;" none
    [Node.mk "modifier" "public" none [], Node.mk "predefined_type" "int" none [],
     Node.mk "identifier" "X" none [],
     Node.mk "arrow_expression_clause" "=> 5" none [], Node.mk ";" ";" none []]

/-- CST of a class whose body holds only the expression-bodied property. -/
def exprBodiedClass : Node :=
  Node.mk "class_declaration" "" none
    [Node.mk "identifier" "Holder" none [],
     Node.mk "declaration_list" "" none [propNoAcc]]

/-- Counterexample to claim C7: an expression-bodied property declaration
(no accessor list, e.g. `public int X => 5;`) extracted from a class body
yields a FunctionSig whose `params` is the empty string, not a
`\x7b get set \x7d`-style accessor token set. -/
theorem csharp_property_without_accessors :
    (extractClass exprBodiedClass "").methods = [FunctionSig.mk "X" "" "int" ""] ∧
    propNoAcc.ty = "property_declaration" ∧
    hasLead "\x7b" (extractMethod propNoAcc "").params = false :=
  ⟨rfl, rfl, rfl⟩

/-- Claim C7 as amended: a C# property declaration whose accessor list
declares at least one `get`/`set`/`init` accessor yields a FunctionSig
carrying the property's name (the text of its first `identifier` child)
and, as `params`, the synthetic accessor token set
`\x7b <accessors> \x7d` — not a normal parameter list; a property that
declares no accessors keeps whatever `params` the ordinary child scan
produced (the empty string). -/
theorem csharp_property_accessor_params (node al idN : Node) (doc : String)
    (hty : node.ty = "property_declaration")
    (hid : node.children.find? (fun c => c.ty == "identifier") = some idN)
    (hn : idN.text ≠ "")
    (hal : node.children.filter (fun c => c.ty == "accessor_list") = [al])
    (hacc : accessorsOf al ≠ []) :
    (extractMethod node doc).name = idN.text ∧
    (extractMethod node doc).params =
      "\x7b " ++ joinSep " " (accessorsOf al) ++ " \x7d" := by
  constructor
  · exact methodFold_first_ident node.children "" "" idN hid hn
  · show (if node.ty == "property_declaration" then
        propertyParams node (methodFold node.children "" "" "").2.1
      else (methodFold node.children "" "" "").2.1) = _
    rw [if_pos (by simp [hty])]
    exact propFold_single node.children _ al hal hacc

/-- CST of the accessor list `get; set;`. -/
def getSetAccList : Node :=
  Node.mk "accessor_list" "" none
    [Node.mk "accessor_declaration" "get;" none [Node.mk "get" "get" none []],
     Node.mk "accessor_declaration" "set;" none [Node.mk "set" "set" none []]]

/-- CST of `public int Result` with a `get; set;` accessor list. -/
def getSetProp : Node :=
  Node.mk "property_declaration" "" none
    [Node.mk "modifier" "public" none [], Node.mk "predefined_type" "int" none [],
     Node.mk "identifier" "Result" none [], getSetAccList]

/-- Witness for the amended C7: the sample auto-property produces name
`Result` and params `\x7b get set \x7d`. -/
theorem csharp_property_accessor_params_witness :
    (extractMethod getSetProp "").name = "Result" ∧
    (extractMethod getSetProp "").params = "\x7b get set \x7d" := by
  have h := csharp_property_accessor_params getSetProp getSetAccList
    (Node.mk "identifier" "Result" none []) "" rfl rfl (by decide) rfl (by decide)
  exact ⟨h.1, h.2⟩

theorem collapseAux_no_newline : ∀ (b : Bool) (l : List Char), '\n' ∉ collapseAux b l := by
  intro b l
  induction l generalizing b with
  | nil => simp [collapseAux]
  | cons c rest ih =>
    simp only [collapseAux]
    by_cases hsp : pyIsSpace c = true
    · rw [if_pos hsp]
      cases b with
      | true => exact ih true
      | false =>
        intro hmem
        exact ih true (by simpa using hmem)
    · rw [if_neg hsp]
      intro hmem
      rcases List.mem_cons.mp hmem with h | h
      · rw [← h] at hsp
        exact hsp (by decide)
      · exact ih false h

theorem mem_dropWhile {α : Type} (p : α → Bool) :
    ∀ (l : List α) (x : α), x ∈ l.dropWhile p → x ∈ l := by
  intro l
  induction l with
  | nil => intro x h; simp [List.dropWhile] at h
  | cons a rest ih =>
    intro x h
    simp only [List.dropWhile_cons] at h
    split at h
    · exact List.mem_cons_of_mem _ (ih _ h)
    · exact h

theorem stripList_subset (l : List Char) (x : Char) (h : x ∈ stripList l) : x ∈ l := by
  unfold stripList at h
  have h1 := mem_dropWhile _ _ _ (List.mem_reverse.mp h)
  exact mem_dropWhile _ _ _ (List.mem_reverse.mp h1)

theorem parseDocComment_no_newline (raw : String) :
    '\n' ∉ (parseDocComment raw).data := by
  intro hmem
  have h1 := stripList_subset _ _ hmem
  exact collapseAux_no_newline false _ h1

/-- CST of one `/** */` block doc comment containing a paragraph break. -/
def blockDocComment : Node := Node.mk "comment" "/** Summary.\n\nDetail. */" none []

/-- CST of `void Run()`. -/
def runMethod : Node :=
  Node.mk "method_declaration" "" none
    [Node.mk "void_keyword" "void" none [], Node.mk "identifier" "Run" none [],
     Node.mk "parameter_list" "()" none []]

/-- CST of a class whose body is the block doc comment followed by the
method it documents. -/
def blockDocClass : Node :=
  Node.mk "class_declaration" "" none
    [Node.mk "identifier" "Notes" none [],
     Node.mk "declaration_list" "" none [blockDocComment, runMethod]]

/-- Counterexample to claim C8: a `/** */` doc comment whose text contains
a paragraph break (a blank line) is stored as the single-paragraph,
whitespace-collapsed docstring `"Summary. Detail."` — the stored docstring
does not keep the paragraph break. -/
theorem csharp_doc_paragraph_break_lost :
    substr "\n\n" blockDocComment.text ∧
    (extractClass blockDocClass "").methods =
      [FunctionSig.mk "Run" "" "void" "Summary. Detail."] ∧
    '\n' ∉ "Summary. Detail.".data :=
  ⟨⟨"/** Summary.", "Detail. */", rfl⟩, rfl, by decide⟩

/-- Claim C8 as amended: `_parse_doc_comment` strips the `///` or `/** */`
markers and the XML tags while keeping the tags' text content, and
collapses every whitespace run — paragraph breaks included — to a single
space in the stored docstring itself: the stored text of one doc comment
never contains a newline.  (Paragraph structure survives only across
separate `///` comment nodes, which `_preceding_doc` joins with
newlines.) -/
theorem csharp_doc_comment_normalization (raw : String) :
    ('\n' ∉ (parseDocComment raw).data) ∧
    parseDocComment "/// <summary>Adds a and b.</summary>" = "Adds a and b." ∧
    parseDocComment "/** Summary.\n\nDetail. */" = "Summary. Detail." :=
  ⟨parseDocComment_no_newline raw, rfl, rfl⟩

theorem takeWhile_idem {α : Type} (p : α → Bool) :
    ∀ l : List α, (l.takeWhile p).takeWhile p = l.takeWhile p := by
  intro l
  induction l with
  | nil => rfl
  | cons a rest ih =>
    by_cases hpa : p a = true
    · simp [List.takeWhile_cons, hpa, ih]
    · simp [List.takeWhile_cons, hpa]

theorem firstLine_firstLine (s : String) : firstLine (firstLine s) = firstLine s :=
  congrArg String.mk (takeWhile_idem _ s.data)

theorem renderDoc_compact (ind : String) (d : String)
    (hfl : d ≠ "" → firstLine d ≠ "") :
    renderDoc ind false (firstLine d) = renderDoc ind false d := by
  by_cases hd : d = ""
  · subst hd; rfl
  · have h1 : (d == "") = false := by simpa using hd
    have h2 : (firstLine d == "") = false := by simpa using hfl hd
    simp only [renderDoc, h1, h2, Bool.false_eq_true, if_false, firstLine_firstLine]

theorem renderFun_compact (marker ind : String) (m : FunctionSig)
    (hfl : m.docstring ≠ "" → firstLine m.docstring ≠ "") :
    renderFun marker ind false (truncSig m) = renderFun marker ind false m := by
  unfold truncSig renderFun
  dsimp only
  rw [renderDoc_compact _ _ hfl]

theorem strConcat_funs_compact (marker ind : String) :
    ∀ ms : List FunctionSig,
      (∀ m ∈ ms, m.docstring ≠ "" → firstLine m.docstring ≠ "") →
      strConcat ((ms.map truncSig).map (renderFun marker ind false)) =
        strConcat (ms.map (renderFun marker ind false)) := by
  intro ms
  induction ms with
  | nil => intro _; rfl
  | cons a rest ih =>
    intro h
    simp only [List.map_cons, strConcat]
    rw [renderFun_compact _ _ a (h a (List.mem_cons_self _ _)),
      ih (fun m hm => h m (List.mem_cons_of_mem _ hm))]

theorem renderClass_compact (c : ClassSkeleton)
    (hc : c.docstring ≠ "" → firstLine c.docstring ≠ "")
    (hm : ∀ m ∈ c.methods, m.docstring ≠ "" → firstLine m.docstring ≠ "") :
    renderClass false (truncClass c) = renderClass false c := by
  unfold truncClass renderClass
  dsimp only
  rw [renderDoc_compact _ _ hc, strConcat_funs_compact _ _ c.methods hm]

theorem strConcat_classes_compact :
    ∀ cs : List ClassSkeleton,
      (∀ c ∈ cs, (c.docstring ≠ "" → firstLine c.docstring ≠ "") ∧
        ∀ m ∈ c.methods, m.docstring ≠ "" → firstLine m.docstring ≠ "") →
      strConcat ((cs.map truncClass).map (renderClass false)) =
        strConcat (cs.map (renderClass false)) := by
  intro cs
  induction cs with
  | nil => intro _; rfl
  | cons a rest ih =>
    intro h
    simp only [List.map_cons, strConcat]
    rw [renderClass_compact a (h a (List.mem_cons_self _ _)).1
        (h a (List.mem_cons_self _ _)).2,
      ih (fun c hc => h c (List.mem_cons_of_mem _ hc))]

theorem module_line_compact (md : String) (h : md ≠ "" → firstLine md ≠ "") :
    (if firstLine md == "" then ""
     else "module: \"" ++ firstLine (firstLine md) ++ "\"\n") =
    (if md == "" then "" else "module: \"" ++ firstLine md ++ "\"\n") := by
  by_cases hmd : md = ""
  · subst hmd; rfl
  · have h1 : (md == "") = false := by simpa using hmd
    have h2 : (firstLine md == "") = false := by simpa using h hmd
    simp only [h1, h2, Bool.false_eq_true, if_false, firstLine_firstLine]

theorem mem_body_class {sk : CodeSkeleton} {c : ClassSkeleton} (hc : c ∈ sk.classes) :
    c.docstring ∈ bodyDocstrings sk := by
  unfold bodyDocstrings
  refine List.mem_append.mpr (Or.inl (List.mem_flatten.mpr ?_))
  exact ⟨c.docstring :: c.methods.map FunctionSig.docstring,
    List.mem_map_of_mem _ hc, List.mem_cons_self _ _⟩

theorem mem_body_method {sk : CodeSkeleton} {c : ClassSkeleton} {m : FunctionSig}
    (hc : c ∈ sk.classes) (hm : m ∈ c.methods) :
    m.docstring ∈ bodyDocstrings sk := by
  unfold bodyDocstrings
  refine List.mem_append.mpr (Or.inl (List.mem_flatten.mpr ?_))
  exact ⟨c.docstring :: c.methods.map FunctionSig.docstring,
    List.mem_map_of_mem _ hc,
    List.mem_cons_of_mem _ (List.mem_map_of_mem _ hm)⟩

theorem mem_body_fun {sk : CodeSkeleton} {f : FunctionSig} (hf : f ∈ sk.functions) :
    f.docstring ∈ bodyDocstrings sk := by
  unfold bodyDocstrings
  exact List.mem_append.mpr (Or.inr (List.mem_map_of_mem _ hf))

theorem substr_appendL (x : String) {d s : String} (h : substr d s) :
    substr d (x ++ s) := by
  obtain ⟨pre, post, rfl⟩ := h
  exact ⟨x ++ pre, post, by simp [String.append_assoc]⟩

theorem substr_appendR (x : String) {d s : String} (h : substr d s) :
    substr d (s ++ x) := by
  obtain ⟨pre, post, rfl⟩ := h
  exact ⟨pre, post ++ x, by simp [String.append_assoc]⟩

theorem substr_strConcat {d : String} :
    ∀ (l : List String) (x : String), x ∈ l → substr d x → substr d (strConcat l) := by
  intro l
  induction l with
  | nil => intro x hx _; cases hx
  | cons a rest ih =>
    intro x hx h
    rcases List.mem_cons.mp hx with h1 | h1
    · subst h1
      exact substr_appendR _ h
    · exact substr_appendL _ (ih x h1 h)

theorem renderDoc_verbose_substr (ind d : String) (hd : d ≠ "") :
    substr d (renderDoc ind true d) := by
  refine ⟨ind ++ q3, q3 ++ "\n", ?_⟩
  have h1 : (d == "") = false := by simpa using hd
  simp [renderDoc, h1, String.append_assoc]

theorem renderFun_doc_substr (marker ind : String) (f : FunctionSig)
    (hne : f.docstring ≠ "") :
    substr f.docstring (renderFun marker ind true f) := by
  unfold renderFun
  exact substr_appendL _ (renderDoc_verbose_substr _ _ hne)

theorem renderClass_doc_substr (c : ClassSkeleton) (hne : c.docstring ≠ "") :
    substr c.docstring (renderClass true c) := by
  unfold renderClass
  exact substr_appendR _ (substr_appendL _ (renderDoc_verbose_substr _ _ hne))

theorem renderClass_method_substr (c : ClassSkeleton) (m : FunctionSig)
    (hm : m ∈ c.methods) (hne : m.docstring ≠ "") :
    substr m.docstring (renderClass true c) := by
  unfold renderClass
  exact substr_appendL _
    (substr_strConcat _ _ (List.mem_map_of_mem _ hm) (renderFun_doc_substr _ _ m hne))

/-- Claim C3 (to_text modelled from the spec): compact rendering
(`verbose=False`) depends only on the first line of every docstring —
rendering the first-line-truncated skeleton produces the identical string,
so no line beyond any docstring's first line can appear; and verbose
rendering (`verbose=True`) contains every non-empty class, method and
top-level-function docstring in full, as a contiguous substring (structured
blocks such as `Args:` or `@param` included).  Per the spec, the module doc
is rendered first-line-only even under `verbose`; the side condition rules
out docstrings whose own first line is empty. -/
theorem to_text_docstring_rendering (sk : CodeSkeleton)
    (hfl : ∀ d ∈ allDocstrings sk, d ≠ "" → firstLine d ≠ "") :
    to_text (truncateDocs sk) false = to_text sk false ∧
    (∀ d ∈ bodyDocstrings sk, d ≠ "" → substr d (to_text sk true)) := by
  have hbody : ∀ d ∈ bodyDocstrings sk, d ≠ "" → firstLine d ≠ "" :=
    fun d hd => hfl d (List.mem_cons_of_mem _ hd)
  constructor
  · unfold to_text truncateDocs
    dsimp only
    rw [module_line_compact sk.module_doc (hfl _ (List.mem_cons_self _ _)),
      strConcat_classes_compact sk.classes
        (fun c hc => ⟨fun h => hbody _ (mem_body_class hc) h,
          fun m hm h => hbody _ (mem_body_method hc hm) h⟩),
      strConcat_funs_compact _ _ sk.functions
        (fun f hf h => hbody _ (mem_body_fun hf) h)]
  · intro d hd hne
    unfold bodyDocstrings at hd
    unfold to_text
    rcases List.mem_append.mp hd with h | h
    · rcases List.mem_flatten.mp h with ⟨dl, hdl, hdin⟩
      rcases List.mem_map.mp hdl with ⟨c, hc, rfl⟩
      rcases List.mem_cons.mp hdin with h2 | h2
      · subst h2
        exact substr_appendR _ (substr_appendL _
          (substr_strConcat _ _ (List.mem_map_of_mem _ hc)
            (renderClass_doc_substr c hne)))
      · rcases List.mem_map.mp h2 with ⟨m, hm, rfl⟩
        exact substr_appendR _ (substr_appendL _
          (substr_strConcat _ _ (List.mem_map_of_mem _ hc)
            (renderClass_method_substr c m hm hne)))
    · rcases List.mem_map.mp h with ⟨f, hf, rfl⟩
      exact substr_appendL _
        (substr_strConcat _ _ (List.mem_map_of_mem _ hf)
          (renderFun_doc_substr _ _ f hne))

/-- The multi-line docstring of the renderer tests. -/
def sampleDoc : String :=
  "First line summary.\n\nMore details here.\nArgs:\n    x: an integer."

/-- The sample skeleton of the renderer tests. -/
def sampleSkeleton : CodeSkeleton :=
  CodeSkeleton.mk "foo.py" "Python" "A foo module." ["os", "sys"]
    [ClassSkeleton.mk "Foo" ["Base"] sampleDoc
      [FunctionSig.mk "run" "self" "None" sampleDoc]]
    [FunctionSig.mk "helper" "x: int" "bool" sampleDoc]

/-- Witness for C3: on the sample skeleton, compact rendering is unchanged
by first-line truncation, and verbose rendering contains the whole
multi-line docstring. -/
theorem to_text_docstring_rendering_witness :
    to_text (truncateDocs sampleSkeleton) false = to_text sampleSkeleton false ∧
    substr sampleDoc (to_text sampleSkeleton true) := by
  have h := to_text_docstring_rendering sampleSkeleton (by decide)
  exact ⟨h.1, h.2 sampleDoc (by decide) (by decide)⟩

theorem getExtractor_lang_none (env : AstEnv) (cache : Cache) :
    getExtractor env cache none = (none, cache) := rfl

theorem getExtractor_some (env : AstEnv) (cache : Cache) (l : String) :
    getExtractor env cache (some l) =
      if supported l then
        match alookup cache l with
        | some v => (v, cache)
        | none =>
          match env.construct l with
          | Except.ok u => (some u, (l, some u) :: cache)
          | Except.error _ => (none, (l, none) :: cache)
      else (none, cache) := rfl

theorem getExtractor_unsupported {env : AstEnv} {cache : Cache} {l : String}
    (h : supported l = false) : getExtractor env cache (some l) = (none, cache) := by
  rw [getExtractor_some, h]
  rfl

theorem getExtractor_cached {env : AstEnv} {cache : Cache} {l : String} {v : Option Unit}
    (hs : supported l = true) (h : alookup cache l = some v) :
    getExtractor env cache (some l) = (v, cache) := by
  rw [getExtractor_some, hs, h]
  rfl

theorem getExtractor_construct_ok {env : AstEnv} {cache : Cache} {l : String} {u : Unit}
    (hs : supported l = true) (h : alookup cache l = none)
    (hc : env.construct l = Except.ok u) :
    getExtractor env cache (some l) = (some u, (l, some u) :: cache) := by
  rw [getExtractor_some, hs, h, hc]
  rfl

theorem getExtractor_construct_err {env : AstEnv} {cache : Cache} {l : String} {e : String}
    (hs : supported l = true) (h : alookup cache l = none)
    (hc : env.construct l = Except.error e) :
    getExtractor env cache (some l) = (none, (l, none) :: cache) := by
  rw [getExtractor_some, hs, h, hc]
  rfl

theorem getExtractor_preserves {env : AstEnv} {cache : Cache} {lang : Option String}
    {l : String} {v : Option Unit} (h : alookup cache l = some v) :
    alookup (getExtractor env cache lang).2 l = some v := by
  cases lang with
  | none => rw [getExtractor_lang_none]; exact h
  | some l2 =>
    by_cases hs : supported l2 = true
    · cases hl2 : alookup cache l2 with
      | some w => rw [getExtractor_cached hs hl2]; exact h
      | none =>
        have hne : (l2 == l) = false := by
          cases hbe : (l2 == l) with
          | false => rfl
          | true =>
            have heq : l2 = l := by simpa using hbe
            rw [heq] at hl2
            rw [h] at hl2
            exact Option.noConfusion hl2
        cases hc : env.construct l2 with
        | ok u =>
          rw [getExtractor_construct_ok hs hl2 hc]
          simpa [alookup, hne] using h
        | error e =>
          rw [getExtractor_construct_err hs hl2 hc]
          simpa [alookup, hne] using h
    · rw [getExtractor_unsupported (by simpa using hs)]; exact h

theorem extractSkeleton_preserves {env : AstEnv} {cache : Cache} {f c : String}
    {v : Bool} {l : String} {w : Option Unit} (h : alookup cache l = some w) :
    alookup (extractSkeleton env cache f c v).2 l = some w := by
  cases hdet : detectLanguage f with
  | none => rw [extractSkeleton_det_none hdet]; exact h
  | some l2 => rw [extractSkeleton_det_some hdet]; exact getExtractor_preserves h

theorem runCalls_preserves {env : AstEnv} {l : String} {w : Option Unit} :
    ∀ (calls : List Call) (cache : Cache), alookup cache l = some w →
      alookup (runCalls env cache calls).2 l = some w := by
  intro calls
  induction calls with
  | nil => intro cache h; exact h
  | cons k rest ih =>
    intro cache h
    simp only [runCalls]
    exact ih _ (extractSkeleton_preserves h)

theorem attemptsCall_zero {cache : Cache} {k : Call} {l : String} {w : Option Unit}
    (h : alookup cache l = some w) : attemptsCall cache k l = 0 := by
  simp [attemptsCall, h]

theorem attemptsDuring_zero {env : AstEnv} {l : String} {w : Option Unit} :
    ∀ (calls : List Call) (cache : Cache), alookup cache l = some w →
      attemptsDuring env cache calls l = 0 := by
  intro calls
  induction calls with
  | nil => intro cache _; rfl
  | cons k rest ih =>
    intro cache h
    simp only [attemptsDuring]
    rw [attemptsCall_zero h, ih _ (extractSkeleton_preserves h)]

theorem alookup_val_mem {α : Type} :
    ∀ (ps : List (String × α)) (k : String) (v : α),
      alookup ps k = some v → v ∈ ps.map Prod.snd := by
  intro ps
  induction ps with
  | nil => intro k v h; simp [alookup] at h
  | cons p rest ih =>
    intro k v h
    obtain ⟨k1, v1⟩ := p
    simp only [alookup] at h
    cases hbk : (k1 == k) with
    | true =>
      rw [hbk, if_pos rfl] at h
      have : v1 = v := by simpa using h
      subst this
      simp
    | false =>
      rw [hbk, if_neg (by simp)] at h
      exact List.mem_cons_of_mem _ (ih k v h)

theorem detect_supported {f l : String} (h : detectLanguage f = some l) :
    supported l = true := by
  have hv := alookup_val_mem extMap _ _ h
  simp only [extMap, List.map_cons, List.map_nil, List.mem_cons,
    List.not_mem_nil, or_false] at hv
  rcases hv with rfl | rfl | rfl | rfl | rfl | rfl | rfl | rfl | rfl | rfl | rfl |
    rfl | rfl | rfl <;> rfl

theorem cache_after_call {env : AstEnv} {cache : Cache} {f c : String} {v : Bool}
    {l : String} (hdet : detectLanguage f = some l) (hs : supported l = true) :
    ∃ w, alookup (extractSkeleton env cache f c v).2 l = some w := by
  rw [extractSkeleton_det_some hdet]
  cases hl : alookup cache l with
  | some w => exact ⟨w, getExtractor_preserves hl⟩
  | none =>
    cases hc : env.construct l with
    | ok u =>
      rw [getExtractor_construct_ok hs hl hc]
      exact ⟨some u, by simp [alookup]⟩
    | error e =>
      rw [getExtractor_construct_err hs hl hc]
      exact ⟨none, by simp [alookup]⟩

theorem attemptsDuring_le_one {env : AstEnv} {l : String} :
    ∀ (calls : List Call) (cache : Cache), attemptsDuring env cache calls l ≤ 1 := by
  intro calls
  induction calls with
  | nil => intro cache; exact Nat.zero_le 1
  | cons k rest ih =>
    intro cache
    simp only [attemptsDuring]
    by_cases ha : attemptsCall cache k l = 0
    · rw [ha]
      simpa using ih (extractSkeleton env cache k.file k.content k.verbose).2
    · have hcond : ((detectLanguage k.file == some l) && supported l &&
          (alookup cache l).isNone) = true := by
        by_contra hc
        have hf : ((detectLanguage k.file == some l) && supported l &&
            (alookup cache l).isNone) = false := by
          cases hb : ((detectLanguage k.file == some l) && supported l &&
              (alookup cache l).isNone) with
          | true => exact absurd hb hc
          | false => rfl
        exact ha (by simp [attemptsCall, hf])
      have h1 : attemptsCall cache k l = 1 := by simp [attemptsCall, hcond]
      have hparts := hcond
      rw [Bool.and_eq_true, Bool.and_eq_true] at hparts
      obtain ⟨⟨hdbeq, hsup⟩, _⟩ := hparts
      have hdet : detectLanguage k.file = some l := by simpa using hdbeq
      obtain ⟨w, hw⟩ :=
        @cache_after_call env cache k.file k.content k.verbose l hdet hsup
      rw [h1, attemptsDuring_zero rest _ hw]

theorem getExtractor_notAvail {env : AstEnv} {cache : Cache} {lang : Option String}
    {l e : String} (hfail : env.construct l = Except.error e)
    (h : alookup cache l = none ∨ alookup cache l = some none) :
    alookup (getExtractor env cache lang).2 l = none ∨
      alookup (getExtractor env cache lang).2 l = some none := by
  cases lang with
  | none => rw [getExtractor_lang_none]; exact h
  | some l2 =>
    by_cases hs : supported l2 = true
    · cases hl2 : alookup cache l2 with
      | some w => rw [getExtractor_cached hs hl2]; exact h
      | none =>
        cases hc : env.construct l2 with
        | ok u =>
          rw [getExtractor_construct_ok hs hl2 hc]
          by_cases hll : (l2 == l) = true
          · have heq : l2 = l := by simpa using hll
            rw [heq, hfail] at hc
            exact Except.noConfusion hc
          · have hll2 : (l2 == l) = false := by
              cases hb : (l2 == l) with
              | true => exact absurd hb hll
              | false => rfl
            have hrw : alookup ((l2, some u) :: cache) l = alookup cache l := by
              simp [alookup, hll2]
            rw [hrw]; exact h
        | error e2 =>
          rw [getExtractor_construct_err hs hl2 hc]
          by_cases hll : (l2 == l) = true
          · right; simp [alookup, hll]
          · have hll2 : (l2 == l) = false := by
              cases hb : (l2 == l) with
              | true => exact absurd hb hll
              | false => rfl
            have hrw : alookup ((l2, none) :: cache) l = alookup cache l := by
              simp [alookup, hll2]
            rw [hrw]; exact h
    · rw [getExtractor_unsupported (by simpa using hs)]; exact h

theorem extractSkeleton_notAvail {env : AstEnv} {cache : Cache} {f c : String}
    {v : Bool} {l e : String} (hfail : env.construct l = Except.error e)
    (h : alookup cache l = none ∨ alookup cache l = some none) :
    alookup (extractSkeleton env cache f c v).2 l = none ∨
      alookup (extractSkeleton env cache f c v).2 l = some none := by
  cases hdet : detectLanguage f with
  | none => rw [extractSkeleton_det_none hdet]; exact h
  | some l2 => rw [extractSkeleton_det_some hdet]; exact getExtractor_notAvail hfail h

theorem runCalls_notAvail {env : AstEnv} {l e : String}
    (hfail : env.construct l = Except.error e) :
    ∀ (calls : List Call) (cache : Cache),
      alookup cache l = none ∨ alookup cache l = some none →
      alookup (runCalls env cache calls).2 l = none ∨
        alookup (runCalls env cache calls).2 l = some none := by
  intro calls
  induction calls with
  | nil => intro cache h; exact h
  | cons k rest ih =>
    intro cache h
    simp only [runCalls]
    exact ih _ (extractSkeleton_notAvail hfail h)

theorem runCalls_entry {env : AstEnv} {l : String} :
    ∀ (calls : List Call) (cache : Cache),
      (∃ k ∈ calls, detectLanguage k.file = some l) →
      ∃ w, alookup (runCalls env cache calls).2 l = some w := by
  intro calls
  induction calls with
  | nil =>
    intro cache h
    obtain ⟨k, hk, _⟩ := h
    cases hk
  | cons k rest ih =>
    intro cache h
    obtain ⟨k0, hk0, hdet0⟩ := h
    simp only [runCalls]
    rcases List.mem_cons.mp hk0 with h1 | h1
    · subst h1
      obtain ⟨w, hw⟩ :=
        @cache_after_call env cache k0.file k0.content k0.verbose l hdet0
          (detect_supported hdet0)
      exact ⟨w, runCalls_preserves rest _ hw⟩
    · exact ih _ ⟨k0, h1, hdet0⟩

/-- Claim C5: on one dispatcher instance (fresh cache), extractor
construction for a given language is attempted at most once over any
sequence of `extract_skeleton` calls; and once construction fails for that
language, the `None` sentinel is cached, so that after any call sequence
containing a file of that language, every further call for that language
returns `None` without re-attempting construction. -/
theorem extractor_construction_memoized (env : AstEnv) (calls : List Call) (l : String) :
    attemptsDuring env [] calls l ≤ 1 ∧
    (∀ e, env.construct l = Except.error e →
      ∀ f c v, detectLanguage f = some l →
        (∃ k ∈ calls, detectLanguage k.file = some l) →
        (extractSkeleton env (runCalls env [] calls).2 f c v).1 = Except.ok none ∧
        attemptsCall (runCalls env [] calls).2 (Call.mk f c v) l = 0) := by
  constructor
  · exact attemptsDuring_le_one calls []
  · intro e hfail f c v hdet hran
    have hNA := runCalls_notAvail hfail calls [] (Or.inl rfl)
    obtain ⟨w, hw⟩ := runCalls_entry calls [] hran
    have hwn : w = none := by
      rcases hNA with hna | hna
      · rw [hna] at hw; exact Option.noConfusion hw
      · rw [hna] at hw
        have := Option.some.inj hw
        exact this.symm
    subst hwn
    constructor
    · rw [extractSkeleton_det_some hdet,
        getExtractor_cached (detect_supported hdet) hw]
    · exact attemptsCall_zero hw

/-- Witness for C5: with a failing constructor and one prior `.py` call,
the attempt count is at most one and a further `.py` call returns `None`
without attempting construction. -/
theorem extractor_construction_memoized_witness :
    attemptsDuring envFail [] [Call.mk "a.py" "" false] "python" ≤ 1 ∧
    (extractSkeleton envFail
      (runCalls envFail [] [Call.mk "a.py" "" false]).2 "b.py" "y" true).1 =
      Except.ok none := by
  have h := extractor_construction_memoized envFail [Call.mk "a.py" "" false] "python"
  exact ⟨h.1,
    (h.2 "unavailable" rfl "b.py" "y" true rfl
      ⟨Call.mk "a.py" "" false, List.mem_cons_self _ _, rfl⟩).1⟩

end OV
